import Mathlib

/-!
QuantileExactWeighted.

A shallow embedding of `dbms/src/AggregateFunctions/QuantileExactWeighted.h`: the
weighted frequency store (`add`, `merge`, `serialize`, `deserialize`) and the exact
nearest-rank quantile extraction (`get`, `getMany`).

Conventions of the embedding.

* `Value` is the template parameter.  The code only copies and compares values, it never
  does arithmetic on them, so the integers stand for any integral value type, with
  `Value()` being `0`.
* `Weight` and every `UInt64` variable is a natural number below `2 ^ 64`; each `+=` and
  `++` on such a variable is written with an explicit `% 2 ^ 64`.
* `Float64` levels are rationals and `std::ceil (sum_weight * level)` is computed exactly.
  Rounding of the floating point product is outside the embedding.
* Raw arrays handed in by the caller (`levels`, `indices`, `result`) are lists whose length
  is the extent of the caller's buffer; an access outside the buffer makes the operation
  fail with `Fault.outOfBounds`.
-/

namespace QuantileExactWeighted

/-- The template parameter `Value`. -/
abbrev Value := Int

/-- The weight type of the map, an unsigned 64 bit counter held as a natural number. -/
abbrev Weight := Nat

/-- Number of values of a `UInt64`. -/
def U64 : Nat := 2 ^ 64

/-- The cell type `Map::value_type`, a `(value, weight)` pair. -/
abbrev Pair := Value × Weight

/-- Modelled from the spec: the `HashMap<Value, Weight, ...>` template is not part of this
header.  The spec describes it as a mapping from value to accumulated weight with unique
keys and an unspecified iteration order.  It is held as the list of its cells in iteration
order; a key that `operator[]` creates is put at the end of that order. -/
abbrev Map := List Pair

/-- Representation invariant of a map: keys are unique and every weight is a `UInt64`. -/
def WF (m : Map) : Prop :=
  (m.map Prod.fst).Nodup ∧ ∀ p ∈ m, p.2 < U64

instance (m : Map) : Decidable (WF m) := by
  unfold WF; infer_instance

/-- The keys of the map in iteration order. -/
def keys (m : Map) : List Value := m.map Prod.fst

/-- The entry of `x` in the value to weight mapping: the weight stored for `x` when `x` is
a key, nothing otherwise. -/
def find? : Map → Value → Option Weight
  | [], _ => none
  | (k, w) :: rest, x => if k = x then some w else find? rest x

/-- The weight of `x`, counting an absent value as weight `0`. -/
def weightOf (m : Map) (x : Value) : Weight := (find? m x).getD 0

/-- Modelled from the spec: `HashMap::operator[]` followed by an update of the referenced
weight.  `map[x]` yields the cell of `x`, creating it with weight `0` when `x` is absent;
`f` is the update applied through the reference (`++`, `+= w`, `= w`). -/
def upsert : Map → Value → (Weight → Weight) → Map
  | [], x, f => [(x, f 0)]
  | (k, w) :: rest, x, f => if k = x then (k, f w) :: rest else (k, w) :: upsert rest x f

/-- The empty store. -/
def empty : Map := []

/-- The operation `add(x)`: `++map[x]`. -/
def add (m : Map) (x : Value) : Map :=
  upsert m x (fun w => (w + 1) % U64)

/-- The operation `add(x, weight)`: `map[x] += weight`. -/
def addWeighted (m : Map) (x : Value) (weight : Nat) : Map :=
  upsert m x (fun w => (w + weight) % U64)

/-- The operation `merge(rhs)`: for every cell of `rhs` in iteration order,
`map[pair.first] += pair.second`. -/
def merge (m rhs : Map) : Map :=
  rhs.foldl (fun acc pair => upsert acc pair.1 (fun w => (w + pair.2) % U64)) m

/-- Modelled from the spec: `HashMap::write`, which emits the number of distinct values
followed by each cell in iteration order.  Only the logical record sequence is kept. -/
def serialize (m : Map) : Nat × List Pair := (m.length, m)

/-- Modelled from the spec: `Map::Reader`, which reads the count field and then delivers
exactly that many `(value, weight)` records; a buffer holding fewer records than the count
announces is truncated and the read fails. -/
def readRecords (buf : Nat × List Pair) : Option (List Pair) :=
  if buf.2.length < buf.1 then none else some (buf.2.take buf.1)

/-- The operation `deserialize(buf)`: for every record the reader delivers,
`map[pair.first] = pair.second`. -/
def deserialize (m : Map) (buf : Nat × List Pair) : Option Map :=
  match readRecords buf with
  | none => none
  | some records =>
    some (records.foldl (fun acc pair => upsert acc pair.1 (fun _ => pair.2)) m)

/-- The running `sum_weight += pair.second` over the cells in iteration order. -/
def sumWeight (m : List Pair) : Nat :=
  m.foldl (fun s pair => (s + pair.2) % U64) 0

/-- Insertion step of the sort, with the comparator `a.first < b.first` of the source. -/
def insertPair (a : Pair) : List Pair → List Pair
  | [] => [a]
  | b :: rest => if a.1 < b.1 then a :: b :: rest else b :: insertPair a rest

/-- The call `std::sort(array, array + size, less-by-first)`. -/
def sortPairs : List Pair → List Pair
  | [] => []
  | a :: rest => insertPair a (sortPairs rest)

/-- The assignment `UInt64 threshold = std::ceil(sum_weight * level)`.  The conversion of
the ceiling to `UInt64` is the identity for levels in `[0, 1]`; outside that range, where
C++ leaves it undefined, a negative ceiling is taken as `0` and a large one is reduced
modulo `2 ^ 64`. -/
def threshold (sum_weight : Nat) (level : ℚ) : Nat :=
  Int.toNat ⌈(sum_weight : ℚ) * level⌉ % U64

/-- The scanning loop of `get`, started with the cursor at offset `it` and the
accumulator at `accumulated`; the result is the final offset of the cursor, which is the
length of the array when the loop ran past the end. -/
def scan (thr : Nat) : List Pair → Nat → Nat → Nat
  | [], it, _ => it
  | p :: rest, it, accumulated =>
    if thr ≤ (accumulated + p.2) % U64 then it
    else scan thr rest (it + 1) ((accumulated + p.2) % U64)

/-- The operation `get(level)`. -/
def get (m : Map) (level : ℚ) : Value :=
  let size := m.length
  if size = 0 then 0
  else
    let sum_weight := sumWeight m
    let array := sortPairs m
    let thr := threshold sum_weight level
    let it := scan thr array 0 0
    let it := if it = size then it - 1 else it
    (array.getD it (0, 0)).1

/-- Ways in which a run of `getMany` can fail to produce a result array. -/
inductive Fault where
  /-- An access outside the caller's `levels`, `indices` or `result` buffer. -/
  | outOfBounds
  /-- The iteration budget of a loop was used up. -/
  | outOfFuel
  deriving DecidableEq, Repr

deriving instance DecidableEq for Except

/-- The read `a[i]` from a caller supplied array. -/
def readAt {α : Type} (a : List α) (i : Nat) : Except Fault α :=
  match a.get? i with
  | some x => Except.ok x
  | none => Except.error Fault.outOfBounds

/-- The write `result[idx] = v` into the caller's result buffer. -/
def writeAt (result : List Value) (idx : Nat) (v : Value) : Except Fault (List Value) :=
  if idx < result.length then Except.ok (result.set idx v) else Except.error Fault.outOfBounds

/-- The loop `for (size_t i = 0; i < size; ++i) result[i] = Value();` of the empty-store
branch, with `n` iterations left and the loop variable at `i`. -/
def fillDefault : Nat → Nat → List Value → Except Fault (List Value)
  | 0, _, result => Except.ok result
  | n + 1, i, result =>
    match writeAt result i 0 with
    | Except.ok r => fillDefault n (i + 1) r
    | Except.error e => Except.error e

/-- How the inner `while (accumulated >= threshold)` loop of `getMany` is left. -/
inductive Step where
  /-- The `return` inside the loop was taken. -/
  | returned (result : List Value)
  /-- The loop condition became false. -/
  | fallThrough (level_index : Nat) (thr : Nat) (result : List Value)

/-- The inner loop `while (accumulated >= threshold)` of `getMany` at the array cell with
value `v`.  `i` and `size` are the local variables of that name at this program point. -/
def innerLoop (levels : List ℚ) (indices : List Nat) (sum_weight i size : Nat) (v : Value)
    (accumulated : Nat) : Nat → Nat → Nat → List Value → Except Fault Step
  | 0, _, _, _ => Except.error Fault.outOfFuel
  | fuel + 1, level_index, thr, result =>
    if thr ≤ accumulated then
      match readAt indices i with
      | Except.error e => Except.error e
      | Except.ok idx =>
        match writeAt result idx v with
        | Except.error e => Except.error e
        | Except.ok r =>
          if level_index + 1 = size then Except.ok (Step.returned r)
          else
            match readAt levels idx with
            | Except.error e => Except.error e
            | Except.ok lv =>
              innerLoop levels indices sum_weight i size v accumulated fuel
                (level_index + 1) (threshold sum_weight lv) r
    else Except.ok (Step.fallThrough level_index thr result)

/-- The outer loop `while (it < end)` of `getMany` over the cells still ahead of `it`. -/
def outerLoop (levels : List ℚ) (indices : List Nat) (sum_weight i size : Nat) :
    List Pair → Nat → Nat → Nat → List Value → Except Fault Step
  | [], _, level_index, thr, result => Except.ok (Step.fallThrough level_index thr result)
  | p :: rest, accumulated, level_index, thr, result =>
    match innerLoop levels indices sum_weight i size p.1 ((accumulated + p.2) % U64)
        (size + 1) level_index thr result with
    | Except.error e => Except.error e
    | Except.ok (Step.returned r) => Except.ok (Step.returned r)
    | Except.ok (Step.fallThrough level_index1 thr1 r) =>
      outerLoop levels indices sum_weight i size rest ((accumulated + p.2) % U64)
        level_index1 thr1 r

/-- The closing loop `while (level_index < size)` of `getMany`, with `n` iterations left,
each storing the last array value `last` at `result[indices[i]]`. -/
def tailLoop (indices : List Nat) (i : Nat) (last : Value) :
    Nat → List Value → Except Fault (List Value)
  | 0, result => Except.ok result
  | n + 1, result =>
    match readAt indices i with
    | Except.error e => Except.error e
    | Except.ok idx =>
      match writeAt result idx last with
      | Except.error e => Except.error e
      | Except.ok r => tailLoop indices i last n r

/-- The operation `getMany(levels, indices, size, result)`, returning the contents of the
`result` buffer after the call.

The header declares the local `size_t size = map.size();` in the body of a function whose
third parameter is also called `size`.  Names are resolved lexically here: from that
declaration on `size` is the local (the number of cells of the map) and the parameter,
named `size_param` below, is not read again.  The local `i` is declared before the copy
loop and incremented once per cell, so it equals the number of cells at every later use. -/
def getMany (m : Map) (levels : List ℚ) (indices : List Nat) (size_param : Nat)
    (result : List Value) : Except Fault (List Value) :=
  let _ := size_param
  let size := m.length
  if size = 0 then fillDefault size 0 result
  else
    let i := m.length
    let sum_weight := sumWeight m
    let array := sortPairs m
    match readAt indices i with
    | Except.error e => Except.error e
    | Except.ok idx0 =>
      match readAt levels idx0 with
      | Except.error e => Except.error e
      | Except.ok lv0 =>
        match outerLoop levels indices sum_weight i size array 0 0
            (threshold sum_weight lv0) result with
        | Except.error e => Except.error e
        | Except.ok (Step.returned r) => Except.ok r
        | Except.ok (Step.fallThrough level_index _ r) =>
          tailLoop indices i (array.getD (size - 1) (0, 0)).1 (size - level_index) r

/-- Two maps hold the same value to weight mapping: the same keys with the same weights. -/
def SameMapping (a b : Map) : Prop := ∀ v, find? a v = find? b v

/-- The call `add(x)` made `n` times in a row. -/
def addTimes (m : Map) (x : Value) : Nat → Map
  | 0 => m
  | n + 1 => add (addTimes m x n) x

/-- The store built from the empty store by `add(value, weight)` for each observation of
the sequence in turn. -/
def build (obs : List (Value × Nat)) : Map :=
  obs.foldl (fun m o => addWeighted m o.1 o.2) empty

/-- All stores of a list merged into one: every further store is merged into the first. -/
def mergeAll : List Map → Map
  | [] => empty
  | s :: rest => rest.foldl merge s

/-- The sum of the weights that a sequence of observations gives for the value `v`. -/
def totalFor (obs : List (Value × Nat)) (v : Value) : Nat :=
  ((obs.filter (fun o => o.1 = v)).map Prod.snd).sum

/-- The accumulator after the cells of `cells` have been added in turn, starting from
`accumulated`; each step is the `accumulated += it->second` of the scanning loops. -/
def accumulate (accumulated : Nat) (cells : List Pair) : Nat :=
  cells.foldl (fun s pair => (s + pair.2) % U64) accumulated

/-- The snapshot order: cells in strictly ascending order of their values. -/
def Ascending (cells : List Pair) : Prop :=
  cells.Pairwise (fun a b => a.1 < b.1)

/-- The sum of all stored weights as a natural number, without wrap-around. -/
def exactTotal (m : List Pair) : Nat := (m.map Prod.snd).sum


/-- Modelled from the spec: the constant `ErrorCodes::NOT_IMPLEMENTED` is declared
`extern` in the header and defined elsewhere; it is the Not-Implemented error kind. -/
inductive ErrorCode where
  /-- The error code `NOT_IMPLEMENTED`. -/
  | NOT_IMPLEMENTED
  deriving DecidableEq, Repr

/-- The thrown `Exception(message, code)`. -/
structure Exception where
  /-- The text of the exception. -/
  message : String
  /-- The error code of the exception. -/
  code : ErrorCode
  deriving DecidableEq, Repr

/-- The operation `getFloat(level)`: the body is a single `throw`. -/
def getFloat (_m : Map) (_level : ℚ) : Except Exception ℚ :=
  Except.error
    (Exception.mk ("Method getFloat is not implemented for QuantileExact")
      ErrorCode.NOT_IMPLEMENTED)

/-- The operation `getManyFloat(levels, indices, size, result)`: the body is a single
`throw`; a successful run would return the contents of the `result` buffer. -/
def getManyFloat (_m : Map) (_levels : List ℚ) (_indices : List Nat) (_size : Nat)
    (_result : List ℚ) : Except Exception (List ℚ) :=
  Except.error
    (Exception.mk ("Method getManyFloat is not implemented for QuantileExact")
      ErrorCode.NOT_IMPLEMENTED)

/-- A history of store operations starting from the empty store: `add(x)`,
`add(x, weight)` and `merge(rhs)`, where the merged store has a history of its own. -/
inductive History where
  /-- The freshly created, empty store. -/
  | init
  /-- The call `add(x)` on the store of `h`. -/
  | add (h : History) (x : Value)
  /-- The call `add(x, weight)` on the store of `h`. -/
  | addWeighted (h : History) (x : Value) (weight : Nat)
  /-- The call `merge(rhs)` on the store of `h`. -/
  | merge (h rhs : History)

/-- The store a history arrives at. -/
def History.run : History → Map
  | History.init => empty
  | History.add h x => QuantileExactWeighted.add h.run x
  | History.addWeighted h x weight => QuantileExactWeighted.addWeighted h.run x weight
  | History.merge h rhs => QuantileExactWeighted.merge h.run rhs.run

/-- All `(value, weight)` additions a history has made to its store: `add(x)` adds weight
`1` to `x`, `add(x, weight)` adds `weight` to `x`, and `merge(rhs)` adds everything that
was added to `rhs`. -/
def History.added : History → List (Value × Nat)
  | History.init => []
  | History.add h x => h.added ++ [(x, 1)]
  | History.addWeighted h x weight => h.added ++ [(x, weight)]
  | History.merge h rhs => h.added ++ rhs.added

/-! ## The store: cells, lookup and update -/

theorem U64_pos : 0 < U64 := by unfold U64; norm_num

theorem find?_upsert (m : Map) (x : Value) (f : Weight → Weight) (y : Value) :
    find? (upsert m x f) y = if y = x then some (f (weightOf m x)) else find? m y := by
  induction m with
  | nil =>
    by_cases h : y = x
    · simp [upsert, find?, weightOf, h]
    · have h2 : ¬ x = y := fun e => h e.symm
      simp [upsert, find?, h, h2]
  | cons p rest ih =>
    obtain ⟨k, w⟩ := p
    by_cases hk : k = x
    · by_cases h : y = x
      · simp [upsert, find?, weightOf, hk, h]
      · have h2 : ¬ x = y := fun e => h e.symm
        simp [upsert, find?, hk, h, h2]
    · by_cases h : y = x
      · have h3 : ¬ k = y := by rw [h]; exact hk
        subst h
        simp only [upsert, hk, if_false, find?, ih, if_true, weightOf]
      · by_cases hy : k = y
        · simp [upsert, find?, hk, hy, h]
        · simp [upsert, find?, hk, hy, h, ih]

theorem find?_eq_none_iff (m : Map) (v : Value) : find? m v = none ↔ v ∉ keys m := by
  induction m with
  | nil => simp [find?, keys]
  | cons p rest ih =>
    obtain ⟨k, w⟩ := p
    by_cases hk : k = v
    · simp [find?, keys, hk]
    · have hk2 : ¬ v = k := fun e => hk e.symm
      simp only [find?, hk, if_false, ih]
      simp [keys, hk2]

theorem mem_keys_iff (m : Map) (v : Value) : v ∈ keys m ↔ ∃ w, find? m v = some w := by
  constructor
  · intro h
    cases hf : find? m v with
    | none => exact absurd h ((find?_eq_none_iff m v).1 hf)
    | some w => exact ⟨w, rfl⟩
  · rintro ⟨w, hw⟩
    by_contra hn
    rw [(find?_eq_none_iff m v).2 hn] at hw
    cases hw

theorem weightOf_of_not_mem (m : Map) (v : Value) (h : v ∉ keys m) : weightOf m v = 0 := by
  simp [weightOf, (find?_eq_none_iff m v).2 h]

theorem find?_mem (m : Map) (v : Value) (w : Weight) (h : find? m v = some w) : (v, w) ∈ m := by
  induction m with
  | nil => simp [find?] at h
  | cons p rest ih =>
    obtain ⟨k, w0⟩ := p
    by_cases hk : k = v
    · simp [find?, hk] at h
      simp [hk, h]
    · simp only [find?, hk, if_false] at h
      exact List.mem_cons_of_mem _ (ih h)

theorem find?_of_mem (m : Map) (hnd : (keys m).Nodup) (v : Value) (w : Weight)
    (h : (v, w) ∈ m) : find? m v = some w := by
  induction m with
  | nil => simp at h
  | cons p rest ih =>
    obtain ⟨k, w0⟩ := p
    simp only [keys, List.map_cons, List.nodup_cons] at hnd
    rcases List.mem_cons.1 h with h | h
    · cases h
      simp [find?]
    · have hv : v ∈ rest.map Prod.fst := List.mem_map.2 ⟨(v, w), h, rfl⟩
      have hk : ¬ k = v := fun e => hnd.1 (e ▸ hv)
      simp only [find?, hk, if_false]
      exact ih hnd.2 h

theorem find?_lt (m : Map) (hwf : WF m) (v : Value) (w : Weight) (h : find? m v = some w) :
    w < U64 := hwf.2 _ (find?_mem m v w h)

theorem weightOf_lt (m : Map) (hwf : WF m) (v : Value) : weightOf m v < U64 := by
  unfold weightOf
  cases h : find? m v with
  | none => exact U64_pos
  | some w => exact find?_lt m hwf v w h

theorem mem_keys_upsert (m : Map) (x : Value) (f : Weight → Weight) (v : Value) :
    v ∈ keys (upsert m x f) ↔ v = x ∨ v ∈ keys m := by
  rw [mem_keys_iff, mem_keys_iff, find?_upsert]
  by_cases h : v = x
  · simp [h]
  · simp [h]

theorem weightOf_upsert (m : Map) (x : Value) (f : Weight → Weight) (v : Value) :
    weightOf (upsert m x f) v = if v = x then f (weightOf m x) else weightOf m v := by
  show (find? (upsert m x f) v).getD 0 = _
  rw [find?_upsert]
  by_cases h : v = x
  · simp [h]
  · simp [h, weightOf]

theorem keys_upsert (m : Map) (x : Value) (f : Weight → Weight) :
    keys (upsert m x f) = if x ∈ keys m then keys m else keys m ++ [x] := by
  induction m with
  | nil => simp [upsert, keys]
  | cons p rest ih =>
    obtain ⟨k, w⟩ := p
    by_cases hk : k = x
    · simp [upsert, keys, hk]
    · have hk2 : ¬ x = k := fun e => hk e.symm
      have ih2 := ih
      simp only [keys] at ih2
      simp only [upsert, hk, if_false, keys, List.map_cons, ih2, List.mem_cons, hk2, false_or]
      by_cases hx : x ∈ rest.map Prod.fst
      · simp [hx]
      · simp [hx]

theorem WF_upsert (m : Map) (hwf : WF m) (x : Value) (f : Weight → Weight)
    (hf : f (weightOf m x) < U64) : WF (upsert m x f) := by
  constructor
  · have hk := keys_upsert m x f
    simp only [keys] at hk
    rw [hk]
    by_cases hx : x ∈ m.map Prod.fst
    · simpa [hx] using hwf.1
    · simp only [hx, if_false]
      rw [List.nodup_append]
      refine ⟨hwf.1, List.nodup_singleton x, ?_⟩
      intro a ha hb
      simp at hb
      exact hx (hb ▸ ha)
  · intro p hp
    obtain ⟨v, w⟩ := p
    have hnd : (keys (upsert m x f)).Nodup := by
      have hk := keys_upsert m x f
      rw [hk]
      by_cases hx : x ∈ keys m
      · simpa [hx] using hwf.1
      · simp only [hx, if_false]
        rw [List.nodup_append]
        refine ⟨hwf.1, List.nodup_singleton x, ?_⟩
        intro a ha hb
        simp at hb
        exact hx (hb ▸ ha)
    have h1 := find?_of_mem _ hnd v w hp
    rw [find?_upsert] at h1
    by_cases h : v = x
    · simp only [h, if_true, Option.some.injEq] at h1
      show w < U64
      rw [← h1]; exact hf
    · simp only [h, if_false] at h1
      exact find?_lt m hwf v w h1

theorem WF_empty : WF empty := by
  constructor
  · simp [empty]
  · intro p hp; simp [empty] at hp

theorem sameMapping_iff (a b : Map) :
    SameMapping a b ↔ ∀ v, (v ∈ keys a ↔ v ∈ keys b) ∧ weightOf a v = weightOf b v := by
  constructor
  · intro h v
    refine ⟨?_, ?_⟩
    · rw [mem_keys_iff, mem_keys_iff, h v]
    · unfold weightOf; rw [h v]
  · intro h v
    obtain ⟨hk, hw⟩ := h v
    cases ha : find? a v with
    | none =>
      have : v ∉ keys b := fun hb => (find?_eq_none_iff a v).1 ha (hk.2 hb)
      exact ((find?_eq_none_iff b v).2 this).symm
    | some w =>
      have hva : v ∈ keys a := (mem_keys_iff a v).2 ⟨w, ha⟩
      obtain ⟨w2, hb⟩ := (mem_keys_iff b v).1 (hk.1 hva)
      unfold weightOf at hw
      rw [ha, hb] at hw
      simp at hw
      rw [hb, hw]


/-! ## `merge`, repeated `add` and stores built from observation sequences -/

theorem merge_nil (a : Map) : merge a [] = a := rfl

theorem merge_cons (a : Map) (p : Pair) (b : Map) :
    merge a (p :: b) = merge (upsert a p.1 (fun w => (w + p.2) % U64)) b := rfl

theorem mem_keys_merge (a b : Map) (v : Value) :
    v ∈ keys (merge a b) ↔ v ∈ keys a ∨ v ∈ keys b := by
  induction b generalizing a with
  | nil => simp [merge_nil, keys]
  | cons p b ih =>
    rw [merge_cons, ih, mem_keys_upsert]
    simp only [keys, List.map_cons, List.mem_cons]
    tauto

theorem find?_merge_of_not_mem (a b : Map) (v : Value) (h : v ∉ keys b) :
    find? (merge a b) v = find? a v := by
  induction b generalizing a with
  | nil => rfl
  | cons p b ih =>
    simp only [keys, List.map_cons, List.mem_cons, not_or] at h
    rw [merge_cons, ih _ h.2, find?_upsert]
    simp [h.1]

theorem weightOf_cons (k : Value) (w : Weight) (b : Map) (v : Value) :
    weightOf ((k, w) :: b) v = if k = v then w else weightOf b v := by
  unfold weightOf
  by_cases h : k = v
  · simp [find?, h]
  · simp [find?, h]

theorem weightOf_merge (a b : Map) (hb : (keys b).Nodup) (v : Value)
    (ha : weightOf a v < U64) :
    weightOf (merge a b) v = (weightOf a v + weightOf b v) % U64 := by
  induction b generalizing a with
  | nil =>
    rw [merge_nil]
    have : weightOf ([] : Map) v = 0 := rfl
    rw [this, Nat.add_zero, Nat.mod_eq_of_lt ha]
  | cons p b ih =>
    obtain ⟨k, w⟩ := p
    simp only [keys, List.map_cons, List.nodup_cons] at hb
    rw [merge_cons]
    by_cases hv : v = k
    · subst hv
      have h1 : weightOf (upsert a v (fun w0 => (w0 + w) % U64)) v = (weightOf a v + w) % U64 := by
        rw [weightOf_upsert]; simp
      have h2 : weightOf b v = 0 := weightOf_of_not_mem b v hb.1
      rw [ih _ hb.2 (by rw [h1]; exact Nat.mod_lt _ U64_pos), h1, h2, weightOf_cons]
      simp
    · have hv2 : ¬ k = v := fun e => hv e.symm
      have h1 : weightOf (upsert a k (fun w0 => (w0 + w) % U64)) v = weightOf a v := by
        rw [weightOf_upsert]; simp [hv]
      rw [ih _ hb.2 (by rw [h1]; exact ha), h1, weightOf_cons]
      simp [hv2]

theorem WF_merge (a b : Map) (ha : WF a) : WF (merge a b) := by
  induction b generalizing a with
  | nil => exact ha
  | cons p b ih =>
    rw [merge_cons]
    exact ih _ (WF_upsert a ha _ _ (Nat.mod_lt _ U64_pos))

theorem mem_keys_add (m : Map) (x : Value) (w : Nat) (v : Value) :
    v ∈ keys (addWeighted m x w) ↔ v = x ∨ v ∈ keys m := mem_keys_upsert m x _ v

theorem find?_addTimes_self (m : Map) (x : Value) (n : Nat) :
    find? (addTimes m x (n + 1)) x = some ((weightOf m x + (n + 1)) % U64) := by
  induction n with
  | zero =>
    show find? (upsert m x _) x = _
    rw [find?_upsert]; simp
  | succ n ih =>
    show find? (upsert (addTimes m x (n + 1)) x _) x = _
    rw [find?_upsert]
    have : weightOf (addTimes m x (n + 1)) x = (weightOf m x + (n + 1)) % U64 := by
      unfold weightOf at *
      rw [ih]; rfl
    simp only [if_true, this, Nat.mod_add_mod]
    rfl

theorem find?_addTimes_other (m : Map) (x : Value) (n : Nat) (y : Value) (h : y ≠ x) :
    find? (addTimes m x n) y = find? m y := by
  induction n with
  | zero => rfl
  | succ n ih =>
    show find? (upsert (addTimes m x n) x _) y = _
    rw [find?_upsert]
    simp [h, ih]

theorem totalFor_cons (o : Value × Nat) (obs : List (Value × Nat)) (v : Value) :
    totalFor (o :: obs) v = (if o.1 = v then o.2 else 0) + totalFor obs v := by
  unfold totalFor
  by_cases h : o.1 = v
  · simp [List.filter_cons, h]
  · simp [List.filter_cons, h]

theorem mem_keys_foldl_add (obs : List (Value × Nat)) (m : Map) (v : Value) :
    v ∈ keys (obs.foldl (fun m o => addWeighted m o.1 o.2) m)
      ↔ v ∈ keys m ∨ v ∈ obs.map Prod.fst := by
  induction obs generalizing m with
  | nil => simp
  | cons o obs ih =>
    rw [List.foldl_cons, ih, mem_keys_add]
    simp only [List.map_cons, List.mem_cons]
    tauto

theorem weightOf_foldl_add (obs : List (Value × Nat)) (m : Map) (v : Value)
    (hm : weightOf m v < U64) :
    weightOf (obs.foldl (fun m o => addWeighted m o.1 o.2) m) v
      = (weightOf m v + totalFor obs v) % U64 := by
  induction obs generalizing m with
  | nil =>
    simp only [List.foldl_nil]
    have : totalFor [] v = 0 := rfl
    rw [this, Nat.add_zero, Nat.mod_eq_of_lt hm]
  | cons o obs ih =>
    simp only [List.foldl_cons]
    have h1 : weightOf (addWeighted m o.1 o.2) v
        = if v = o.1 then (weightOf m o.1 + o.2) % U64 else weightOf m v := by
      unfold addWeighted; rw [weightOf_upsert]
    by_cases hv : v = o.1
    · have hv2 : o.1 = v := hv.symm
      rw [ih _ (by rw [h1]; simp only [hv, if_true]; exact Nat.mod_lt _ U64_pos), h1,
        totalFor_cons]
      simp only [hv, if_true, Nat.mod_add_mod]
      rw [Nat.add_assoc]
    · have hv2 : ¬ o.1 = v := fun e => hv e.symm
      rw [ih _ (by rw [h1]; simp only [hv, if_false]; exact hm), h1, totalFor_cons]
      simp [hv, hv2]

theorem WF_foldl_add (obs : List (Value × Nat)) (m : Map) (hm : WF m) :
    WF (obs.foldl (fun m o => addWeighted m o.1 o.2) m) := by
  induction obs generalizing m with
  | nil => exact hm
  | cons o obs ih =>
    simp only [List.foldl_cons]
    exact ih _ (WF_upsert m hm _ _ (Nat.mod_lt _ U64_pos))

theorem WF_build (obs : List (Value × Nat)) : WF (build obs) :=
  WF_foldl_add obs empty WF_empty

theorem mem_keys_build (obs : List (Value × Nat)) (v : Value) :
    v ∈ keys (build obs) ↔ v ∈ obs.map Prod.fst := by
  unfold build
  rw [mem_keys_foldl_add]
  simp [empty, keys]

theorem weightOf_build (obs : List (Value × Nat)) (v : Value) :
    weightOf (build obs) v = totalFor obs v % U64 := by
  unfold build
  rw [weightOf_foldl_add obs empty v (by simp [empty, weightOf, find?, U64_pos])]
  simp [empty, weightOf, find?]

theorem mem_keys_foldl_merge (stores : List Map) (m : Map) (v : Value) :
    v ∈ keys (stores.foldl merge m) ↔ v ∈ keys m ∨ ∃ s ∈ stores, v ∈ keys s := by
  induction stores generalizing m with
  | nil => simp
  | cons s stores ih =>
    simp only [List.foldl_cons, ih, mem_keys_merge, List.mem_cons, exists_eq_or_imp]
    tauto

theorem weightOf_foldl_merge (stores : List Map) (hs : ∀ s ∈ stores, WF s) (m : Map)
    (v : Value) (hm : weightOf m v < U64) :
    weightOf (stores.foldl merge m) v
      = (weightOf m v + (stores.map (fun s => weightOf s v)).sum) % U64 := by
  induction stores generalizing m with
  | nil => simp [Nat.mod_eq_of_lt hm]
  | cons s stores ih =>
    have hs1 : WF s := hs s (List.mem_cons_self _ _)
    have h1 : weightOf (merge m s) v = (weightOf m v + weightOf s v) % U64 :=
      weightOf_merge m s hs1.1 v hm
    simp only [List.foldl_cons, List.map_cons, List.sum_cons]
    rw [ih (fun t ht => hs t (List.mem_cons_of_mem _ ht)) _
      (by rw [h1]; exact Nat.mod_lt _ U64_pos), h1, Nat.mod_add_mod, Nat.add_assoc]

theorem mem_keys_mergeAll (stores : List Map) (v : Value) :
    v ∈ keys (mergeAll stores) ↔ ∃ s ∈ stores, v ∈ keys s := by
  cases stores with
  | nil => simp [mergeAll, empty, keys]
  | cons s rest =>
    simp only [mergeAll, mem_keys_foldl_merge, List.mem_cons, exists_eq_or_imp]

theorem weightOf_mergeAll (stores : List Map) (hs : ∀ s ∈ stores, WF s) (v : Value) :
    weightOf (mergeAll stores) v = (stores.map (fun s => weightOf s v)).sum % U64 := by
  cases stores with
  | nil => simp [mergeAll, empty, weightOf, find?]
  | cons s rest =>
    simp only [mergeAll, List.map_cons, List.sum_cons]
    exact weightOf_foldl_merge rest (fun t ht => hs t (List.mem_cons_of_mem _ ht)) s v
      (weightOf_lt s (hs s (List.mem_cons_self _ _)) v)

theorem sum_map_mod (l : List Nat) : (l.map (fun n => n % U64)).sum % U64 = l.sum % U64 := by
  induction l with
  | nil => rfl
  | cons a l ih =>
    simp only [List.map_cons, List.sum_cons]
    rw [Nat.add_mod, ih, Nat.mod_mod, ← Nat.add_mod]

theorem totalFor_flatten (shards : List (List (Value × Nat))) (v : Value) :
    totalFor shards.flatten v = (shards.map (fun sh => totalFor sh v)).sum := by
  induction shards with
  | nil => rfl
  | cons sh shards ih =>
    simp only [List.flatten_cons, List.map_cons, List.sum_cons, ← ih]
    unfold totalFor
    simp [List.filter_append]

theorem totalFor_perm (a b : List (Value × Nat)) (h : a.Perm b) (v : Value) :
    totalFor a v = totalFor b v := by
  unfold totalFor
  exact ((h.filter _).map _).sum_eq


/-! ## `deserialize` -/

theorem find?_foldl_set_of_not_mem (recs : List Pair) (m : Map) (v : Value)
    (h : v ∉ recs.map Prod.fst) :
    find? (recs.foldl (fun acc pair => upsert acc pair.1 (fun _ => pair.2)) m) v = find? m v := by
  induction recs generalizing m with
  | nil => rfl
  | cons p recs ih =>
    simp only [List.map_cons, List.mem_cons, not_or] at h
    rw [List.foldl_cons, ih _ h.2, find?_upsert]
    simp [h.1]

theorem find?_foldl_set_of_mem (recs : List Pair) (hu : (recs.map Prod.fst).Nodup) (m : Map)
    (p : Pair) (hp : p ∈ recs) :
    find? (recs.foldl (fun acc pair => upsert acc pair.1 (fun _ => pair.2)) m) p.1 = some p.2 := by
  induction recs generalizing m with
  | nil => simp at hp
  | cons q recs ih =>
    simp only [List.map_cons, List.nodup_cons] at hu
    rw [List.foldl_cons]
    rcases List.mem_cons.1 hp with h | h
    · subst h
      rw [find?_foldl_set_of_not_mem recs _ p.1 hu.1, find?_upsert]
      simp
    · exact ih hu.2 _ h

theorem deserialize_full (m : Map) (recs : List Pair) :
    deserialize m (recs.length, recs)
      = some (recs.foldl (fun acc pair => upsert acc pair.1 (fun _ => pair.2)) m) := by
  simp [deserialize, readRecords]

/-! ## Claims about the store -/

/-- C4: for every sequence of weighted observations and every partition of it into shards,
the shard stores built by `add(value, weight)` and merged into one in any order hold the
same value to weight mapping as the single store built from the whole sequence. -/
theorem merge_shards_eq_build (obs : List (Value × Nat)) (shards : List (List (Value × Nat)))
    (stores : List Map) (hpart : shards.flatten.Perm obs)
    (hord : stores.Perm (shards.map build)) :
    SameMapping (mergeAll stores) (build obs) := by
  rw [sameMapping_iff]
  intro v
  have hwf : ∀ s ∈ stores, WF s := by
    intro s hs
    obtain ⟨sh, _, rfl⟩ := List.mem_map.1 (hord.mem_iff.1 hs)
    exact WF_build sh
  constructor
  · rw [mem_keys_mergeAll, mem_keys_build, ← (hpart.map Prod.fst).mem_iff]
    constructor
    · rintro ⟨s, hs, hv⟩
      obtain ⟨sh, hsh, rfl⟩ := List.mem_map.1 (hord.mem_iff.1 hs)
      obtain ⟨o, ho, rfl⟩ := List.mem_map.1 ((mem_keys_build sh v).1 hv)
      exact List.mem_map.2 ⟨o, List.mem_flatten.2 ⟨sh, hsh, ho⟩, rfl⟩
    · intro hv
      obtain ⟨o, ho, rfl⟩ := List.mem_map.1 hv
      obtain ⟨sh, hsh, hosh⟩ := List.mem_flatten.1 ho
      exact ⟨build sh, hord.mem_iff.2 (List.mem_map.2 ⟨sh, hsh, rfl⟩),
        (mem_keys_build sh o.1).2 (List.mem_map.2 ⟨o, hosh, rfl⟩)⟩
  · rw [weightOf_mergeAll stores hwf v, weightOf_build, ← totalFor_perm _ _ hpart v,
      totalFor_flatten, (hord.map (fun s => weightOf s v)).sum_eq, List.map_map,
      ← sum_map_mod (shards.map fun sh => totalFor sh v), List.map_map]
    congr 2
    apply List.map_congr_left
    intro sh _
    exact weightOf_build sh v

theorem merge_shards_eq_build_witness :
    SameMapping (mergeAll [build [(7, 1)], build [(5, 2), (7, 3)]])
      (build [(5, 2), (7, 1), (7, 3)]) :=
  merge_shards_eq_build [(5, 2), (7, 1), (7, 3)] [[(5, 2), (7, 3)], [(7, 1)]]
    [build [(7, 1)], build [(5, 2), (7, 3)]] (by decide) (by decide)

/-- C5: `merge` is commutative and associative on the value to weight mapping, with the
weights added modulo `2 ^ 64`: merging `b` into `a` gives the mapping of merging `a` into
`b`, and merging `c` into `a` merged with `b` gives the mapping of merging `b` merged with
`c` into `a`. -/
theorem merge_comm_assoc (a b c : Map) (ha : WF a) (hb : WF b) (hc : WF c) :
    SameMapping (merge a b) (merge b a)
      ∧ SameMapping (merge (merge a b) c) (merge a (merge b c)) := by
  constructor
  · rw [sameMapping_iff]
    intro v
    refine ⟨?_, ?_⟩
    · rw [mem_keys_merge, mem_keys_merge]; tauto
    · rw [weightOf_merge a b hb.1 v (weightOf_lt a ha v),
        weightOf_merge b a ha.1 v (weightOf_lt b hb v), Nat.add_comm]
  · rw [sameMapping_iff]
    intro v
    have hab : WF (merge a b) := WF_merge a b ha
    have hbc : WF (merge b c) := WF_merge b c hb
    refine ⟨?_, ?_⟩
    · rw [mem_keys_merge, mem_keys_merge, mem_keys_merge, mem_keys_merge]; tauto
    · rw [weightOf_merge _ c hc.1 v (weightOf_lt _ hab v),
        weightOf_merge a b hb.1 v (weightOf_lt a ha v),
        weightOf_merge a _ hbc.1 v (weightOf_lt a ha v),
        weightOf_merge b c hc.1 v (weightOf_lt b hb v),
        Nat.mod_add_mod, Nat.add_mod_mod, Nat.add_assoc]

theorem merge_comm_assoc_witness :
    SameMapping (merge [(1, 2), (3, 2 ^ 64 - 1)] [(3, 4), (2, 0)])
        (merge [(3, 4), (2, 0)] [(1, 2), (3, 2 ^ 64 - 1)])
      ∧ SameMapping (merge (merge [(1, 2), (3, 2 ^ 64 - 1)] [(3, 4), (2, 0)]) [(1, 5)])
        (merge [(1, 2), (3, 2 ^ 64 - 1)] (merge [(3, 4), (2, 0)] [(1, 5)])) :=
  merge_comm_assoc [(1, 2), (3, 2 ^ 64 - 1)] [(3, 4), (2, 0)] [(1, 5)]
    (by decide) (by decide) (by decide)

/-- C6: after `s.merge(other)` the keys of `s` are the union of the two key sets and the
weight of every value is its previous weight in `s` plus its weight in `other`, absent
values counting as `0` and the sum being that of `UInt64` (exact whenever it stays below
`2 ^ 64`); a value that is not a key of `other` keeps its entry in `s` as it was. -/
theorem merge_keys_weights (s other : Map) (hs : WF s) (ho : WF other) :
    (∀ v, v ∈ keys (merge s other) ↔ v ∈ keys s ∨ v ∈ keys other)
      ∧ (∀ v, weightOf (merge s other) v = (weightOf s v + weightOf other v) % U64)
      ∧ (∀ v, weightOf s v + weightOf other v < U64 →
          weightOf (merge s other) v = weightOf s v + weightOf other v)
      ∧ (∀ v, v ∉ keys other → find? (merge s other) v = find? s v)
      ∧ WF (merge s other) := by
  have h2 : ∀ v, weightOf (merge s other) v = (weightOf s v + weightOf other v) % U64 :=
    fun v => weightOf_merge s other ho.1 v (weightOf_lt s hs v)
  refine ⟨fun v => mem_keys_merge s other v, h2, ?_, ?_, WF_merge s other hs⟩
  · intro v hv
    rw [h2 v, Nat.mod_eq_of_lt hv]
  · intro v hv
    exact find?_merge_of_not_mem s other v hv

theorem merge_keys_weights_witness :
    (∀ v, v ∈ keys (merge [(1, 2), (3, 5)] [(3, 4), (2, 0)])
        ↔ v ∈ keys [(1, 2), (3, 5)] ∨ v ∈ keys [(3, 4), (2, 0)])
      ∧ (∀ v, weightOf (merge [(1, 2), (3, 5)] [(3, 4), (2, 0)]) v
          = (weightOf [(1, 2), (3, 5)] v + weightOf [(3, 4), (2, 0)] v) % U64)
      ∧ (∀ v, weightOf [(1, 2), (3, 5)] v + weightOf [(3, 4), (2, 0)] v < U64 →
          weightOf (merge [(1, 2), (3, 5)] [(3, 4), (2, 0)]) v
            = weightOf [(1, 2), (3, 5)] v + weightOf [(3, 4), (2, 0)] v)
      ∧ (∀ v, v ∉ keys [(3, 4), (2, 0)] →
          find? (merge [(1, 2), (3, 5)] [(3, 4), (2, 0)]) v = find? [(1, 2), (3, 5)] v)
      ∧ WF (merge [(1, 2), (3, 5)] [(3, 4), (2, 0)]) :=
  merge_keys_weights [(1, 2), (3, 5)] [(3, 4), (2, 0)] (by decide) (by decide)

/-- C7: after `add(x, w)` the weight stored for `x` is its previous weight (`0` if `x` was
absent) plus `w`, after `add(x)` it is the previous weight plus `1` (so `1` if `x` was
absent), the sum being that of `UInt64` and exact whenever it stays below `2 ^ 64`; `x` is
a key afterwards, and the entry of every other value is unchanged. -/
theorem add_weight_frame (m : Map) (x : Value) (w : Nat) :
    find? (addWeighted m x w) x = some ((weightOf m x + w) % U64)
      ∧ find? (add m x) x = some ((weightOf m x + 1) % U64)
      ∧ (weightOf m x + w < U64 → find? (addWeighted m x w) x = some (weightOf m x + w))
      ∧ (weightOf m x + 1 < U64 → find? (add m x) x = some (weightOf m x + 1))
      ∧ (x ∉ keys m → find? (add m x) x = some 1)
      ∧ x ∈ keys (addWeighted m x w) ∧ x ∈ keys (add m x)
      ∧ (∀ y, y ≠ x → find? (addWeighted m x w) y = find? m y ∧ find? (add m x) y = find? m y) := by
  have h1 : find? (addWeighted m x w) x = some ((weightOf m x + w) % U64) := by
    unfold addWeighted; rw [find?_upsert]; simp
  have h2 : find? (add m x) x = some ((weightOf m x + 1) % U64) := by
    unfold add; rw [find?_upsert]; simp
  refine ⟨h1, h2, ?_, ?_, ?_, ?_, ?_, ?_⟩
  · intro h; rw [h1, Nat.mod_eq_of_lt h]
  · intro h; rw [h2, Nat.mod_eq_of_lt h]
  · intro h
    rw [h2, weightOf_of_not_mem m x h]
    rfl
  · exact (mem_keys_iff _ _).2 ⟨_, h1⟩
  · exact (mem_keys_iff _ _).2 ⟨_, h2⟩
  · intro y hy
    constructor
    · unfold addWeighted; rw [find?_upsert]; simp [hy]
    · unfold add; rw [find?_upsert]; simp [hy]

theorem add_weight_frame_witness :
    find? (addWeighted [(4, 2), (9, 1)] 9 6) 9 = some ((weightOf [(4, 2), (9, 1)] 9 + 6) % U64)
      ∧ find? (add [(4, 2), (9, 1)] 9) 9 = some ((weightOf [(4, 2), (9, 1)] 9 + 1) % U64)
      ∧ (weightOf [(4, 2), (9, 1)] 9 + 6 < U64 →
          find? (addWeighted [(4, 2), (9, 1)] 9 6) 9 = some (weightOf [(4, 2), (9, 1)] 9 + 6))
      ∧ (weightOf [(4, 2), (9, 1)] 9 + 1 < U64 →
          find? (add [(4, 2), (9, 1)] 9) 9 = some (weightOf [(4, 2), (9, 1)] 9 + 1))
      ∧ (9 ∉ keys [(4, 2), (9, 1)] → find? (add [(4, 2), (9, 1)] 9) 9 = some 1)
      ∧ 9 ∈ keys (addWeighted [(4, 2), (9, 1)] 9 6) ∧ 9 ∈ keys (add [(4, 2), (9, 1)] 9)
      ∧ (∀ y, y ≠ 9 → find? (addWeighted [(4, 2), (9, 1)] 9 6) y = find? [(4, 2), (9, 1)] y
          ∧ find? (add [(4, 2), (9, 1)] 9) y = find? [(4, 2), (9, 1)] y) :=
  add_weight_frame [(4, 2), (9, 1)] 9 6

/-- C8, counterexample: on the empty store no call of `add(5)` leaves the store empty,
while the single call `add(5, 0)` makes `5` a key of weight `0`; the two mappings differ. -/
theorem addTimes_zero_differs :
    ¬ SameMapping (addTimes empty 5 0) (addWeighted empty 5 0) := by
  intro h
  have h5 := h 5
  simp [addTimes, addWeighted, empty, upsert, find?] at h5

/-- C8, amended: for every well-formed store, value `x` and count `n` with `n ≥ 1`, or with
`x` already a key, `n` calls of `add(x)` give the same value to weight mapping as the single
call `add(x, n)`; for every `n` the two stores agree on the weight of every value. -/
theorem addTimes_eq_addWeighted (m : Map) (hm : WF m) (x : Value) (n : Nat) :
    (0 < n ∨ x ∈ keys m → SameMapping (addTimes m x n) (addWeighted m x n))
      ∧ ∀ v, weightOf (addTimes m x n) v = weightOf (addWeighted m x n) v := by
  have hadd : ∀ y, find? (addWeighted m x n) y
      = if y = x then some ((weightOf m x + n) % U64) else find? m y := by
    intro y; unfold addWeighted; rw [find?_upsert]
  cases n with
  | zero =>
    have hx : (weightOf m x + 0) % U64 = weightOf m x := by
      rw [Nat.add_zero, Nat.mod_eq_of_lt (weightOf_lt m hm x)]
    constructor
    · intro h v
      rcases h with h | h
      · exact absurd h (Nat.lt_irrefl 0)
      · rw [hadd v]
        show find? m v = _
        by_cases hv : v = x
        · obtain ⟨w, hw⟩ := (mem_keys_iff m x).1 h
          simp only [hv, if_true, hx]
          rw [hw]; simp [weightOf, hw]
        · simp [hv]
    · intro v
      unfold weightOf
      rw [hadd v]
      show (find? m v).getD 0 = _
      by_cases hv : v = x
      · simp only [hv, if_true, hx]
        simp [weightOf]
      · simp [hv]
  | succ k =>
    have hsame : SameMapping (addTimes m x (k + 1)) (addWeighted m x (k + 1)) := by
      intro v
      rw [hadd v]
      by_cases hv : v = x
      · simp only [hv, if_true]
        exact find?_addTimes_self m x k
      · simp only [hv, if_false]
        exact find?_addTimes_other m x (k + 1) v hv
    refine ⟨fun _ => hsame, fun v => ?_⟩
    unfold weightOf
    rw [hsame v]

theorem addTimes_eq_addWeighted_witness :
    (0 < 3 ∨ 8 ∈ keys [(8, 2 ^ 64 - 2)] →
        SameMapping (addTimes [(8, 2 ^ 64 - 2)] 8 3) (addWeighted [(8, 2 ^ 64 - 2)] 8 3))
      ∧ ∀ v, weightOf (addTimes [(8, 2 ^ 64 - 2)] 8 3) v
          = weightOf (addWeighted [(8, 2 ^ 64 - 2)] 8 3) v :=
  addTimes_eq_addWeighted [(8, 2 ^ 64 - 2)] (by decide) 8 3

/-- C9: for every store `s`, `serialize` writes the number of distinct values followed by
exactly that many records, and reading these records, in whatever order they were written,
into an empty store succeeds and gives a store with the same value to weight mapping. -/
theorem serialize_deserialize_roundtrip (s : Map) (hs : WF s) (recs : List Pair)
    (hperm : recs.Perm (serialize s).2) :
    (serialize s).1 = (keys s).length ∧ (serialize s).2.length = (serialize s).1
      ∧ ∃ m, deserialize empty ((serialize s).1, recs) = some m ∧ SameMapping m s := by
  have hlen : recs.length = s.length := hperm.length_eq
  refine ⟨by simp [serialize, keys], rfl, ?_⟩
  refine ⟨recs.foldl (fun acc pair => upsert acc pair.1 (fun _ => pair.2)) empty, ?_, ?_⟩
  · show deserialize empty (s.length, recs) = _
    rw [← hlen]; exact deserialize_full empty recs
  · have hnd : (recs.map Prod.fst).Nodup := ((hperm.map Prod.fst).nodup_iff).2 hs.1
    intro v
    cases hf : find? s v with
    | none =>
      have hv : v ∉ recs.map Prod.fst := by
        intro hv
        exact (find?_eq_none_iff s v).1 hf (((hperm.map Prod.fst).mem_iff).1 hv)
      rw [find?_foldl_set_of_not_mem recs empty v hv]
      rfl
    | some w =>
      have hmem : (v, w) ∈ recs := hperm.mem_iff.2 (find?_mem s v w hf)
      exact find?_foldl_set_of_mem recs hnd empty (v, w) hmem

theorem serialize_deserialize_roundtrip_witness :
    (serialize [(3, 1), (1, 0), (2, 7)]).1 = (keys [(3, 1), (1, 0), (2, 7)]).length
      ∧ (serialize [(3, 1), (1, 0), (2, 7)]).2.length = (serialize [(3, 1), (1, 0), (2, 7)]).1
      ∧ ∃ m, deserialize empty ((serialize [(3, 1), (1, 0), (2, 7)]).1, [(2, 7), (3, 1), (1, 0)])
          = some m ∧ SameMapping m [(3, 1), (1, 0), (2, 7)] :=
  serialize_deserialize_roundtrip [(3, 1), (1, 0), (2, 7)] (by decide) [(2, 7), (3, 1), (1, 0)]
    (by decide)

/-- C10: `deserialize` replaces: for every store `s`, empty or not, and every record
sequence with unique values, reading the records succeeds, afterwards each value of the
records has exactly the weight read for it, and every value that does not occur in the
records has the entry it had in `s`. -/
theorem deserialize_replaces (s : Map) (recs : List Pair) (hu : (recs.map Prod.fst).Nodup) :
    ∃ m, deserialize s (recs.length, recs) = some m
      ∧ (∀ p ∈ recs, find? m p.1 = some p.2)
      ∧ (∀ v, v ∉ recs.map Prod.fst → find? m v = find? s v) :=
  ⟨_, deserialize_full s recs, fun p hp => find?_foldl_set_of_mem recs hu s p hp,
    fun v hv => find?_foldl_set_of_not_mem recs s v hv⟩

theorem deserialize_replaces_witness :
    ∃ m, deserialize [(1, 5), (2, 6)] ([((2 : Value), (1 : Weight)), (3, 4)].length, [(2, 1), (3, 4)])
        = some m
      ∧ (∀ p ∈ [((2 : Value), (1 : Weight)), (3, 4)], find? m p.1 = some p.2)
      ∧ (∀ v, v ∉ [((2 : Value), (1 : Weight)), (3, 4)].map Prod.fst →
          find? m v = find? [(1, 5), (2, 6)] v) :=
  deserialize_replaces [(1, 5), (2, 6)] [(2, 1), (3, 4)] (by decide)


/-! ## The snapshot: weight sums, sorting and the scanning loop -/

theorem accumulate_mod (a : Nat) (cells : List Pair) :
    accumulate (a % U64) cells = (a + exactTotal cells) % U64 := by
  induction cells generalizing a with
  | nil => simp [accumulate, exactTotal]
  | cons p cells ih =>
    have h := ih (a % U64 + p.2)
    unfold accumulate at h ⊢
    simp only [List.foldl_cons]
    rw [h]
    simp only [exactTotal, List.map_cons, List.sum_cons]
    rw [Nat.add_assoc, Nat.mod_add_mod]

theorem sumWeight_eq (cells : List Pair) : sumWeight cells = exactTotal cells % U64 := by
  have h := accumulate_mod 0 cells
  rw [Nat.zero_mod, Nat.zero_add] at h
  exact h

theorem exactTotal_perm (a b : List Pair) (h : a.Perm b) : exactTotal a = exactTotal b :=
  (h.map _).sum_eq

theorem sumWeight_perm (a b : List Pair) (h : a.Perm b) : sumWeight a = sumWeight b := by
  rw [sumWeight_eq, sumWeight_eq, exactTotal_perm a b h]

theorem accumulate_cons (a : Nat) (p : Pair) (cells : List Pair) :
    accumulate a (p :: cells) = accumulate ((a + p.2) % U64) cells := rfl

theorem insertPair_perm (a : Pair) (l : List Pair) : (insertPair a l).Perm (a :: l) := by
  induction l with
  | nil => exact List.Perm.refl _
  | cons b rest ih =>
    unfold insertPair
    by_cases h : a.1 < b.1
    · simp only [h, if_true]; exact List.Perm.refl _
    · simp only [h, if_false]
      exact (List.Perm.cons b ih).trans (List.Perm.swap a b rest)

theorem sortPairs_perm (l : List Pair) : (sortPairs l).Perm l := by
  induction l with
  | nil => exact List.Perm.refl _
  | cons a rest ih =>
    unfold sortPairs
    exact (insertPair_perm a _).trans (List.Perm.cons a ih)

theorem insertPair_ascending (a : Pair) (l : List Pair) (hl : Ascending l)
    (ha : a.1 ∉ l.map Prod.fst) : Ascending (insertPair a l) := by
  induction l with
  | nil => simp [insertPair, Ascending]
  | cons b rest ih =>
    unfold Ascending at hl ih ⊢
    rw [List.pairwise_cons] at hl
    simp only [List.map_cons, List.mem_cons, not_or] at ha
    unfold insertPair
    by_cases h : a.1 < b.1
    · simp only [h, if_true]
      rw [List.pairwise_cons]
      refine ⟨?_, List.pairwise_cons.2 hl⟩
      intro c hc
      rcases List.mem_cons.1 hc with hc | hc
      · rw [hc]; exact h
      · exact lt_trans h (hl.1 c hc)
    · simp only [h, if_false]
      rw [List.pairwise_cons]
      refine ⟨?_, ih hl.2 ha.2⟩
      intro c hc
      rcases List.mem_cons.1 ((insertPair_perm a rest).mem_iff.1 hc) with hc | hc
      · rw [hc]
        exact lt_of_le_of_ne (not_lt.1 h) (fun e => ha.1 e.symm)
      · exact hl.1 c hc

theorem sortPairs_ascending (l : List Pair) (hnd : (l.map Prod.fst).Nodup) :
    Ascending (sortPairs l) := by
  induction l with
  | nil => simp [sortPairs, Ascending]
  | cons a rest ih =>
    simp only [List.map_cons, List.nodup_cons] at hnd
    unfold sortPairs
    apply insertPair_ascending a _ (ih hnd.2)
    intro h
    exact hnd.1 (((sortPairs_perm rest).map Prod.fst).mem_iff.1 h)

theorem scan_cases (thr : Nat) (l : List Pair) (it acc : Nat) :
    (scan thr l it acc = it + l.length
        ∧ ∀ q, q <+: l → q ≠ [] → accumulate acc q < thr)
      ∨ ∃ pre p post, l = pre ++ p :: post ∧ scan thr l it acc = it + pre.length
          ∧ thr ≤ accumulate acc (pre ++ [p])
          ∧ ∀ q, q <+: pre → q ≠ [] → accumulate acc q < thr := by
  induction l generalizing it acc with
  | nil =>
    left
    refine ⟨rfl, ?_⟩
    intro q hq hne
    exact absurd (List.prefix_nil.1 hq) hne
  | cons a rest ih =>
    by_cases h : thr ≤ (acc + a.2) % U64
    · right
      refine ⟨[], a, rest, rfl, ?_, ?_, ?_⟩
      · simp [scan, h]
      · simpa [accumulate] using h
      · intro q hq hne
        exact absurd (List.prefix_nil.1 hq) hne
    · have hs : scan thr (a :: rest) it acc = scan thr rest (it + 1) ((acc + a.2) % U64) := by
        simp [scan, h]
      have hstep : ∀ (l2 : List Pair),
          (∀ q, q <+: l2 → q ≠ [] → accumulate ((acc + a.2) % U64) q < thr) →
          ∀ q, q <+: a :: l2 → q ≠ [] → accumulate acc q < thr := by
        intro l2 hl2 q hq hne
        rcases List.prefix_cons_iff.1 hq with hq | ⟨t, rfl, ht⟩
        · exact absurd hq hne
        · rw [accumulate_cons]
          by_cases htn : t = []
          · subst htn
            exact Nat.lt_of_not_le h
          · exact hl2 t ht htn
      rcases ih (it + 1) ((acc + a.2) % U64) with ⟨h1, h2⟩ | ⟨pre, p, post, h1, h2, h3, h4⟩
      · left
        refine ⟨?_, hstep rest h2⟩
        rw [hs, h1, List.length_cons]; omega
      · right
        refine ⟨a :: pre, p, post, ?_, ?_, ?_, hstep pre h4⟩
        · rw [h1]; rfl
        · rw [hs, h2, List.length_cons]; omega
        · rw [List.cons_append, accumulate_cons]; exact h3

theorem threshold_le (sum_weight : Nat) (level : ℚ) (h1 : level ≤ 1) :
    threshold sum_weight level ≤ sum_weight := by
  unfold threshold
  have hx : (sum_weight : ℚ) * level ≤ ((sum_weight : ℤ) : ℚ) := by
    have : (0 : ℚ) ≤ (sum_weight : ℚ) := Nat.cast_nonneg _
    have := mul_le_mul_of_nonneg_left h1 this
    simpa using this
  have hc : ⌈(sum_weight : ℚ) * level⌉ ≤ (sum_weight : ℤ) := Int.ceil_le.2 hx
  have ht : Int.toNat ⌈(sum_weight : ℚ) * level⌉ ≤ sum_weight := by omega
  exact le_trans (Nat.mod_le _ _) ht

/-- C3, the code at a failing input: on the store built by `add(10)` and `add(20)`, with
three levels `0, 1/2, 1` in ascending order and a result buffer holding `-1` in each slot,
`getMany` stores a value only in slot `indices[2]` and leaves slots `0` and `1` as they
were, although `get(0) = 10` and `get(1/2) = 10`. -/
theorem getMany_fills_one_slot :
    add (add empty 10) 20 = [(10, 1), (20, 1)]
      ∧ getMany [(10, 1), (20, 1)] [0, 1 / 2, 1] [0, 1, 2] 3 [-1, -1, -1]
          = Except.ok [-1, -1, 20]
      ∧ get [(10, 1), (20, 1)] 0 = 10
      ∧ get [(10, 1), (20, 1)] (1 / 2) = 10
      ∧ get [(10, 1), (20, 1)] 1 = 20 := by
  refine ⟨by decide, by decide!, by decide!, by decide!, by decide!⟩


/-! ## Empty stores, unsupported operations and bounds of the scan -/

/-- C11: on the empty store `get(level)` returns `Value()`, which is zero, for every
level; `get` is a total function, so no error is raised. -/
theorem get_empty (level : ℚ) : get empty level = 0 := rfl

/-- C12, the code on the empty store: for every count, levels, indices and result buffer
`getMany` returns with the result buffer exactly as it was, so a slot that held `7` still
holds `7` and not `Value()`. -/
theorem getMany_empty_keeps_result :
    (∀ (levels : List ℚ) (indices : List Nat) (size : Nat) (result : List Value),
        getMany empty levels indices size result = Except.ok result)
      ∧ getMany empty [3 / 10] [0] 1 [7] = Except.ok [7]
      ∧ get empty (3 / 10) = 0 :=
  ⟨fun _ _ _ _ => rfl, rfl, rfl⟩

/-- C13: for every store and every argument `getFloat` and `getManyFloat` fail with the
Not-Implemented error; neither ever returns a value or a written result buffer. -/
theorem getFloat_not_implemented (m : Map) (level : ℚ) (levels : List ℚ) (indices : List Nat)
    (size : Nat) (result : List ℚ) :
    (∃ e, getFloat m level = Except.error e ∧ e.code = ErrorCode.NOT_IMPLEMENTED)
      ∧ (∃ e, getManyFloat m levels indices size result = Except.error e
          ∧ e.code = ErrorCode.NOT_IMPLEMENTED)
      ∧ (∀ x, getFloat m level ≠ Except.ok x)
      ∧ (∀ r, getManyFloat m levels indices size result ≠ Except.ok r) := by
  refine ⟨⟨_, rfl, rfl⟩, ⟨_, rfl, rfl⟩, ?_, ?_⟩
  · intro x h; simp [getFloat] at h
  · intro r h; simp [getManyFloat] at h

theorem scan_le (thr : Nat) (l : List Pair) (it acc : Nat) :
    scan thr l it acc ≤ it + l.length := by
  rcases scan_cases thr l it acc with ⟨h, _⟩ | ⟨pre, p, post, h1, h2, _, _⟩
  · rw [h]
  · rw [h2, h1, List.length_append, List.length_cons]; omega

theorem scan_lt (thr : Nat) (l : List Pair) (hne : l ≠ []) (hthr : thr ≤ accumulate 0 l) :
    scan thr l 0 0 < l.length := by
  rcases scan_cases thr l 0 0 with ⟨_, h⟩ | ⟨pre, p, post, h1, h2, _, _⟩
  · have := h l (List.prefix_refl _) hne
    omega
  · rw [h2]
    conv_rhs => rw [h1]
    rw [List.length_append, List.length_cons]; omega

/-- C15: for every non-empty store and every level `≤ 1` (so for every level in `[0, 1]`)
the threshold `ceil (total_weight * level)` is at most `total_weight`, the scan of `get`
stops at a position inside the snapshot, and `get` returns the value at that position:
the branch for a scan that ran past the end is not taken. -/
theorem get_scan_inside (m : Map) (level : ℚ) (hne : m ≠ []) (h1 : level ≤ 1) :
    threshold (sumWeight m) level ≤ sumWeight m
      ∧ scan (threshold (sumWeight m) level) (sortPairs m) 0 0 < m.length
      ∧ scan (threshold (sumWeight m) level) (sortPairs m) 0 0 ≠ m.length
      ∧ get m level
          = ((sortPairs m).getD (scan (threshold (sumWeight m) level) (sortPairs m) 0 0)
              (0, 0)).1
      ∧ (exactTotal m < U64 → sumWeight m = exactTotal m) := by
  have hthr : threshold (sumWeight m) level ≤ sumWeight m := threshold_le _ _ h1
  have hlen : (sortPairs m).length = m.length := (sortPairs_perm m).length_eq
  have hne2 : sortPairs m ≠ [] := by
    intro h
    apply hne
    apply List.length_eq_zero.1
    rw [← hlen, h]; rfl
  have hs : accumulate 0 (sortPairs m) = sumWeight m := sumWeight_perm _ _ (sortPairs_perm m)
  have hlt : scan (threshold (sumWeight m) level) (sortPairs m) 0 0 < m.length := by
    rw [← hlen]
    exact scan_lt _ _ hne2 (by rw [hs]; exact hthr)
  have hsize : ¬ m.length = 0 := fun h => hne (List.length_eq_zero.1 h)
  refine ⟨hthr, hlt, Nat.ne_of_lt hlt, ?_, ?_⟩
  · unfold get
    simp only [hsize, if_false, Nat.ne_of_lt hlt]
  · intro hex
    rw [sumWeight_eq, Nat.mod_eq_of_lt hex]

theorem get_scan_inside_witness :
    (([(1, 3), (2, 1)] : Map) ≠ [] ∧ (1 / 2 : ℚ) ≤ 1)
      ∧ threshold (sumWeight [(1, 3), (2, 1)]) (1 / 2) ≤ sumWeight [(1, 3), (2, 1)]
      ∧ scan (threshold (sumWeight [(1, 3), (2, 1)]) (1 / 2)) (sortPairs [(1, 3), (2, 1)]) 0 0
          < ([(1, 3), (2, 1)] : Map).length :=
  have h := get_scan_inside [(1, 3), (2, 1)] (1 / 2) (by decide) (by norm_num)
  ⟨⟨by decide, by norm_num⟩, h.1, h.2.1⟩

/-- C16, the code at failing inputs: with one level and buffers of extent one, `getMany`
on a store of one value reads `indices[1]`, outside the buffer; the same happens with two
levels on a store of three values (`indices[3]`). -/
theorem getMany_reads_past_count :
    add empty 10 = [(10, 1)]
      ∧ getMany [(10, 1)] [1 / 2] [0] 1 [-1] = Except.error Fault.outOfBounds
      ∧ readAt [0] (List.length [((10 : Value), (1 : Weight))]) = Except.error Fault.outOfBounds
      ∧ getMany [(10, 1), (20, 1), (30, 1)] [0, 1] [0, 1] 2 [-1, -1]
          = Except.error Fault.outOfBounds := by
  refine ⟨by decide, by decide!, by decide, by decide!⟩

/-- C17: for every non-empty store and every level, inside `[0, 1]` or not, the value
returned by `get(level)` is one of the stored keys. -/
theorem get_mem_keys (m : Map) (level : ℚ) (hne : m ≠ []) : get m level ∈ keys m := by
  have hlen : (sortPairs m).length = m.length := (sortPairs_perm m).length_eq
  have hsize : ¬ m.length = 0 := fun h => hne (List.length_eq_zero.1 h)
  have hle := scan_le (threshold (sumWeight m) level) (sortPairs m) 0 0
  rw [Nat.zero_add, hlen] at hle
  have hidx : ∃ k, k < (sortPairs m).length ∧ get m level = ((sortPairs m).getD k (0, 0)).1 := by
    by_cases h : scan (threshold (sumWeight m) level) (sortPairs m) 0 0 = m.length
    · refine ⟨m.length - 1, by omega, ?_⟩
      unfold get
      simp only [hsize, if_false, h, if_true]
    · refine ⟨scan (threshold (sumWeight m) level) (sortPairs m) 0 0, by omega, ?_⟩
      unfold get
      simp only [hsize, if_false, h]
  obtain ⟨k, hk, hget⟩ := hidx
  rw [hget, List.getD_eq_getElem?_getD, List.getElem?_eq_getElem hk, Option.getD_some]
  have hmem : (sortPairs m)[k] ∈ m := (sortPairs_perm m).mem_iff.1 (List.getElem_mem hk)
  exact List.mem_map.2 ⟨_, hmem, rfl⟩

theorem get_mem_keys_witness :
    ([(1, 3), (2, 1)] : Map) ≠ [] ∧ get [(1, 3), (2, 1)] 7 ∈ keys [(1, 3), (2, 1)] :=
  ⟨by decide, get_mem_keys [(1, 3), (2, 1)] 7 (by decide)⟩


/-! ## Monotonicity and independence of the iteration order -/

theorem perm_of_sameMapping (a b : Map) (ha : WF a) (hb : WF b) (h : SameMapping a b) :
    a.Perm b := by
  rw [List.perm_ext_iff_of_nodup (List.Nodup.of_map _ ha.1) (List.Nodup.of_map _ hb.1)]
  rintro ⟨v, w⟩
  constructor
  · intro hm
    have := find?_of_mem a ha.1 v w hm
    rw [h v] at this
    exact find?_mem b v w this
  · intro hm
    have := find?_of_mem b hb.1 v w hm
    rw [← h v] at this
    exact find?_mem a v w this

theorem sortPairs_eq_of_perm (a b : Map) (ha : (keys a).Nodup) (h : a.Perm b) :
    sortPairs a = sortPairs b := by
  have hb : (keys b).Nodup := ((h.map Prod.fst).nodup_iff).1 ha
  haveI : IsAntisymm Pair (fun x y => x.1 < y.1) :=
    ⟨fun x y hxy hyx => absurd hxy (not_lt_of_lt hyx)⟩
  exact List.eq_of_perm_of_sorted (((sortPairs_perm a).trans h).trans (sortPairs_perm b).symm)
    (sortPairs_ascending a ha) (sortPairs_ascending b hb)

/-- C19: `get` depends only on the value to weight mapping: two stores with the same
mapping, whatever their iteration orders and however they were built, give the same value
for every level. -/
theorem get_mapping_only (a b : Map) (ha : WF a) (hb : WF b) (h : SameMapping a b)
    (level : ℚ) : get a level = get b level := by
  have hperm := perm_of_sameMapping a b ha hb h
  unfold get
  rw [sortPairs_eq_of_perm a b ha.1 hperm, sumWeight_perm a b hperm, hperm.length_eq]

theorem get_mapping_only_witness :
    (WF (add (addWeighted empty 1 3) 2) ∧ WF (addWeighted (add empty 2) 1 3))
      ∧ add (addWeighted empty 1 3) 2 = [(1, 3), (2, 1)]
      ∧ addWeighted (add empty 2) 1 3 = [(2, 1), (1, 3)]
      ∧ get (add (addWeighted empty 1 3) 2) (1 / 2) = get (addWeighted (add empty 2) 1 3) (1 / 2) :=
  ⟨⟨by decide, by decide⟩, by decide, by decide,
    get_mapping_only (add (addWeighted empty 1 3) 2) (addWeighted (add empty 2) 1 3)
      (by decide) (by decide)
      (by
        intro v
        show find? [(1, 3), (2, 1)] v = find? [(2, 1), (1, 3)] v
        by_cases h1 : v = 1
        · subst h1; decide
        · by_cases h2 : v = 2
          · subst h2; decide
          · have h1' : ¬ (1 : Value) = v := fun e => h1 e.symm
            have h2' : ¬ (2 : Value) = v := fun e => h2 e.symm
            simp [find?, h1', h2'])
      (1 / 2)⟩

/-! ## The store invariant along histories -/

theorem totalFor_append (a b : List (Value × Nat)) (v : Value) :
    totalFor (a ++ b) v = totalFor a v + totalFor b v := by
  unfold totalFor
  simp [List.filter_append]

theorem totalFor_single (x : Value) (w : Nat) (v : Value) :
    totalFor [(x, w)] v = if v = x then w else 0 := by
  rw [totalFor_cons]
  by_cases h : v = x
  · subst h; simp [totalFor]
  · have h2 : ¬ x = v := fun e => h e.symm
    simp [totalFor, h, h2]

theorem WF_run (h : History) : WF h.run := by
  induction h with
  | init => exact WF_empty
  | add h x ih => exact WF_upsert _ ih _ _ (Nat.mod_lt _ U64_pos)
  | addWeighted h x w ih => exact WF_upsert _ ih _ _ (Nat.mod_lt _ U64_pos)
  | merge h rhs ih _ => exact WF_merge _ _ ih

theorem mem_keys_run (h : History) (v : Value) :
    v ∈ keys h.run ↔ v ∈ h.added.map Prod.fst := by
  induction h with
  | init => simp [History.run, History.added, empty, keys]
  | add h x ih =>
    show v ∈ keys (upsert h.run x _) ↔ _
    rw [mem_keys_upsert, ih]
    simp only [History.added, List.map_append, List.mem_append, List.map_cons, List.map_nil,
      List.mem_singleton]
    tauto
  | addWeighted h x w ih =>
    show v ∈ keys (upsert h.run x _) ↔ _
    rw [mem_keys_upsert, ih]
    simp only [History.added, List.map_append, List.mem_append, List.map_cons, List.map_nil,
      List.mem_singleton]
    tauto
  | merge h rhs ih1 ih2 =>
    show v ∈ keys (QuantileExactWeighted.merge h.run rhs.run) ↔ _
    rw [mem_keys_merge, ih1, ih2]
    simp only [History.added, List.map_append, List.mem_append]

theorem weightOf_run (h : History) (v : Value) :
    weightOf h.run v = totalFor h.added v % U64 := by
  induction h with
  | init => simp [History.run, History.added, empty, weightOf, find?, totalFor]
  | add h x ih =>
    show weightOf (upsert h.run x _) v = _
    rw [weightOf_upsert]
    simp only [History.added, totalFor_append, totalFor_single]
    by_cases hv : v = x
    · subst hv
      simp only [if_true, ih, Nat.mod_add_mod]
    · simp only [hv, if_false, ih, Nat.add_zero]
  | addWeighted h x w ih =>
    show weightOf (upsert h.run x _) v = _
    rw [weightOf_upsert]
    simp only [History.added, totalFor_append, totalFor_single]
    by_cases hv : v = x
    · subst hv
      simp only [if_true, ih, Nat.mod_add_mod]
    · simp only [hv, if_false, ih, Nat.add_zero]
  | merge h rhs ih1 ih2 =>
    show weightOf (QuantileExactWeighted.merge h.run rhs.run) v = _
    rw [weightOf_merge _ _ (WF_run rhs).1 v (weightOf_lt _ (WF_run h) v), ih1, ih2]
    simp only [History.added, totalFor_append]
    rw [← Nat.add_mod]

theorem weightOf_run_mono (h g : History) (v : Value)
    (hle : totalFor h.added v ≤ totalFor g.added v) (hno : totalFor g.added v < U64) :
    weightOf h.run v ≤ weightOf g.run v := by
  rw [weightOf_run, weightOf_run, Nat.mod_eq_of_lt hno,
    Nat.mod_eq_of_lt (Nat.lt_of_le_of_lt hle hno)]
  exact hle

/-- C14: for every store reached from the empty store by `add(value)`,
`add(value, weight)` and `merge` operations the keys are unique, a value is a key exactly
when some operation added it, and its weight is the `UInt64` sum of all weights added for
it, which is the exact sum when that sum is below `2 ^ 64`.  Every further `add` or `merge`
keeps each key, and leaves its weight at least as large when the sum of the weights added
for it after the operation is below `2 ^ 64`. -/
theorem history_invariant (h : History) :
    (keys h.run).Nodup
      ∧ (∀ p ∈ h.run, p.2 < U64)
      ∧ (∀ v, v ∈ keys h.run ↔ v ∈ h.added.map Prod.fst)
      ∧ (∀ v, weightOf h.run v = totalFor h.added v % U64)
      ∧ (∀ v, totalFor h.added v < U64 → weightOf h.run v = totalFor h.added v)
      ∧ (∀ (x : Value) (w : Nat) (rhs : History) (v : Value), v ∈ keys h.run →
          v ∈ keys (History.add h x).run ∧ v ∈ keys (History.addWeighted h x w).run
            ∧ v ∈ keys (History.merge h rhs).run)
      ∧ (∀ (x : Value) (v : Value), totalFor (History.add h x).added v < U64 →
          weightOf h.run v ≤ weightOf (History.add h x).run v)
      ∧ (∀ (x : Value) (w : Nat) (v : Value),
          totalFor (History.addWeighted h x w).added v < U64 →
            weightOf h.run v ≤ weightOf (History.addWeighted h x w).run v)
      ∧ (∀ (rhs : History) (v : Value), totalFor (History.merge h rhs).added v < U64 →
          weightOf h.run v ≤ weightOf (History.merge h rhs).run v) := by
  refine ⟨(WF_run h).1, (WF_run h).2, mem_keys_run h, weightOf_run h, ?_, ?_, ?_, ?_, ?_⟩
  · intro v hv
    rw [weightOf_run, Nat.mod_eq_of_lt hv]
  · intro x w rhs v hv
    rw [mem_keys_run] at hv
    refine ⟨?_, ?_, ?_⟩
    · rw [mem_keys_run]
      simp only [History.added, List.map_append, List.mem_append]
      exact Or.inl hv
    · rw [mem_keys_run]
      simp only [History.added, List.map_append, List.mem_append]
      exact Or.inl hv
    · rw [mem_keys_run]
      simp only [History.added, List.map_append, List.mem_append]
      exact Or.inl hv
  · intro x v hno
    apply weightOf_run_mono h _ v _ hno
    simp only [History.added, totalFor_append]
    exact Nat.le_add_right _ _
  · intro x w v hno
    apply weightOf_run_mono h _ v _ hno
    simp only [History.added, totalFor_append]
    exact Nat.le_add_right _ _
  · intro rhs v hno
    apply weightOf_run_mono h _ v _ hno
    simp only [History.added, totalFor_append]
    exact Nat.le_add_right _ _

theorem history_invariant_witness :
    (History.merge (History.add (History.addWeighted History.init 5 2) 7)
        (History.addWeighted History.init 5 3)).run = [(5, 5), (7, 1)]
      ∧ (keys (History.merge (History.add (History.addWeighted History.init 5 2) 7)
          (History.addWeighted History.init 5 3)).run).Nodup
      ∧ (∀ v, weightOf (History.merge (History.add (History.addWeighted History.init 5 2) 7)
            (History.addWeighted History.init 5 3)).run v
          = totalFor (History.merge (History.add (History.addWeighted History.init 5 2) 7)
            (History.addWeighted History.init 5 3)).added v % U64) :=
  have h := history_invariant (History.merge (History.add (History.addWeighted History.init 5 2) 7)
    (History.addWeighted History.init 5 3))
  ⟨by decide, h.1, h.2.2.2.1⟩

end QuantileExactWeighted
